import Mathlib

/-
Verification development for the robolake-cli repository.

The development shallowly embeds the two core subsystems:
  - the recursive message-flattening algorithm
    (src/robolake_cli/processor.py, ROSbagProcessor._flatten_ros_message
     and ROSbagProcessor._extract_message_data), and
  - the table/catalog storage layer
    (src/robolake_cli/catalog.py, DataCatalog._append_dataframe,
     DataCatalog.append_rosbag, DataCatalog.get_table_info,
     DataCatalog.delete_table).

Python values that can appear inside a deserialized ROS message are
modelled by the inductive type Value below; Python dicts keyed by strings
are modelled by association lists together with insertion-ordered
insert-or-overwrite operations, which is exactly the observable behaviour
of CPython dicts.
-/

namespace Robolake

/-- A Python scalar as classified by line 161 of processor.py:
isinstance(value, (int, float, str, bool, type(None))).  Python floats
arising in this code base come from divisions by 1e9 and are modelled
exactly as rationals. -/
inductive Cell where
  | int : Int → Cell
  | rat : Rat → Cell
  | str : String → Cell
  | bool : Bool → Cell
  | null : Cell
deriving DecidableEq, Repr

/-- Result of a Python attribute access getattr(msg_obj, field, None),
line 158 of processor.py: the attribute is present with a value, the
attribute is declared but unset (getattr returns the None default;
hasattr is False), or the access raises an exception with the given
message (a property raising a non-AttributeError propagates through
getattr even with a default). -/
inductive FieldAcc (α : Type) where
  | val : α → FieldAcc α
  | absent : FieldAcc α
  | raises : String → FieldAcc α
deriving DecidableEq

/-- A Python value as seen by _flatten_ros_message:
  - scalar: int, float, str, bool or None (line 161);
  - seq: a list or tuple (line 163);
  - record: an object recognized as a ROS message by one of the three
    introspection conventions of lines 145-151 (slots,
    fields_and_field_types, or the type marker with dir screening); the
    embedding carries the resulting ordered field list directly;
  - obj: any other object; the carried string is its str() rendering. -/
inductive Value where
  | scalar : Cell → Value
  | seq : List Value → Value
  | record : List (String × FieldAcc Value) → Value
  | obj : String → Value

abbrev Entry := String × Cell

/-- The keys of an association-list dict, in order. -/
def keys (d : List Entry) : List String := d.map Prod.fst

/-- Python dict write d[k] = v: overwrite in place if the key is present,
else append at the end (CPython preserves insertion order). -/
def dictInsert (d : List Entry) (k : String) (v : Cell) : List Entry :=
  if k ∈ keys d then d.map (fun e => if e.1 = k then (k, v) else e)
  else d ++ [(k, v)]

/-- Python dict.update(es) driven by an entry list: sequential writes. -/
def dictUpdate (d : List Entry) (es : List Entry) : List Entry :=
  es.foldl (fun acc e => dictInsert acc e.1 e.2) d

/-- Python str() of a scalar. -/
def strCell : Cell → String
  | .int n => toString n
  | .rat q => toString q
  | .str s => s
  | .bool b => if b then "True" else "False"
  | .null => "None"

/-- Python repr() of a scalar (differs from str only on strings). -/
def reprCell : Cell → String
  | .str s => "'" ++ s ++ "'"
  | c => strCell c

mutual

/-- Python repr() of a value.  Lists and tuples render their elements
with repr; the rendering of record objects and opaque objects is a
runtime detail no claim depends on, modelled by a fixed total scheme. -/
def reprOf : Value → String
  | .scalar c => reprCell c
  | .seq xs => "[" ++ String.intercalate ", " (reprList xs) ++ "]"
  | .record fs => "record(" ++ String.intercalate ", " (reprFields fs) ++ ")"
  | .obj s => s

def reprList : List Value → List String
  | [] => []
  | v :: rest => reprOf v :: reprList rest

def reprFields : List (String × FieldAcc Value) → List String
  | [] => []
  | (n, .val v) :: rest => (n ++ "=" ++ reprOf v) :: reprFields rest
  | (n, _) :: rest => n :: reprFields rest

end

/-- Python str() of a value; str agrees with repr on containers and on
the opaque objects modelled here. -/
def strOf : Value → String
  | .scalar c => strCell c
  | v => reprOf v

/-- json.dumps of a scalar, default encoder. -/
def jsonCell : Cell → Option String
  | .int n => some (toString n)
  | .rat q => some (toString q)
  | .str s => some ("\"" ++ s ++ "\"")
  | .bool b => some (if b then "true" else "false")
  | .null => some "null"

mutual

/-- json.dumps (line 174 of processor.py): succeeds on scalars and on
lists and tuples of serializable values, raises TypeError (modelled as
none) on the other values occurring here: ROS message objects and the
opaque message-library values of this model have no default JSON
encoding. -/
def jsonDumps : Value → Option String
  | .scalar c => jsonCell c
  | .seq xs =>
      match jsonList xs with
      | some ss => some ("[" ++ String.intercalate ", " ss ++ "]")
      | none => none
  | .record _ => none
  | .obj _ => none

def jsonList : List Value → Option (List String)
  | [] => some []
  | v :: rest =>
      match jsonDumps v, jsonList rest with
      | some s, some ss => some (s :: ss)
      | _, _ => none

end

/-- Python "s".rstrip, removing every trailing dot (line 154). -/
def rstripDots (s : String) : String :=
  ⟨(s.data.reverse.dropWhile (fun c => c = '.')).reverse⟩

/-- The per-field error marker of line 184 of processor.py:
result[key] = "<error: " + str(e) + ">".  This realizes the
ErrorPlaceholder variant of the specification. -/
def errorPlaceholder (e : String) : Cell :=
  .str ("<error: " ++ e ++ ">")

mutual

/-- Embedding of ROSbagProcessor._flatten_ros_message
(processor.py lines 135-186).  The pfx argument models the Python
parameter with its None default normalized to the empty string by
line 142; maxA models max_array_elements (default 5).  A record value
enters the field loop; any other value hits the fallback of line 154,
returning the singleton dict mapping pfx.rstrip to str of the value. -/
def _flatten_ros_message (msgObj : Value) (pfx : String) (maxA : Nat) :
    List Entry :=
  match msgObj with
  | .record fields => flattenFieldsLoop fields pfx maxA []
  | _ => [(rstripDots pfx, .str (strOf msgObj))]

/-- The field loop of lines 156-184, threading the result dict. -/
def flattenFieldsLoop (fields : List (String × FieldAcc Value))
    (pfx : String) (maxA : Nat) (result : List Entry) : List Entry :=
  match fields with
  | [] => result
  | (n, acc) :: rest =>
      flattenFieldsLoop rest pfx maxA
        (dictUpdate result (fieldEntries n acc pfx maxA))

/-- The dict writes performed by one iteration of the field loop, as an
entry list: a raising access is caught by the except of line 181 and
yields the error placeholder; an absent attribute yields the None
default of getattr, stored as a scalar by line 162. -/
def fieldEntries (n : String) (acc : FieldAcc Value) (pfx : String)
    (maxA : Nat) : List Entry :=
  match acc with
  | .raises e => [(pfx ++ n, errorPlaceholder e)]
  | .absent => [(pfx ++ n, Cell.null)]
  | .val v => valueEntries (pfx ++ n) v maxA

/-- The dict writes for one field value at its key (lines 161-180). -/
def valueEntries (key : String) (v : Value) (maxA : Nat) : List Entry :=
  match v with
  | .scalar c => [(key, c)]
  | .seq xs =>
      if xs.length ≤ maxA then seqElemEntries key 0 xs maxA
      else [(key, .str ((jsonDumps (.seq xs)).getD (strOf (.seq xs))))]
  | .record fields => flattenFieldsLoop fields (key ++ ".") maxA []
  | .obj s => [(key, .str (strOf (.obj s)))]

/-- The per-element writes of lines 166-170 for a short sequence:
scalars are stored at key with the bracketed index appended; any other
element is flattened recursively with the dotted bracketed index as the
new path. -/
def seqElemEntries (key : String) (i : Nat) (xs : List Value)
    (maxA : Nat) : List Entry :=
  match xs with
  | [] => []
  | v :: rest =>
      (match v with
       | .scalar c => [(key ++ "[" ++ toString i ++ "]", c)]
       | _ => _flatten_ros_message v (key ++ "[" ++ toString i ++ "].") maxA)
      ++ seqElemEntries key (i + 1) rest maxA

end

/-! ## Row building (ROSbagProcessor._extract_message_data, lines 188-220) -/

/-- The topic and msgtype exposed by a rosbags connection object. -/
structure ConnInfo where
  topic : String
  msgtype : String
deriving DecidableEq

/-- Attribute access on a value, as used by the hasattr chain of
lines 202-204.  Only ROS message records expose named attributes in
this code path; lookup returns the first binding for the name. -/
def getAttrAcc (v : Value) (n : String) : Option (FieldAcc Value) :=
  match v with
  | .record fs => fs.lookup n
  | _ => none

/-- Numeric coercion used by sec + nanosec / 1e9 (line 205): ints,
floats and bools are numbers in Python; any other operand raises
TypeError. -/
def toNumQ : Value → Option Rat
  | .scalar (.int n) => some (n : Rat)
  | .scalar (.rat q) => some q
  | .scalar (.bool b) => some (if b then 1 else 0)
  | _ => none

/-- The header-timestamp step of lines 202-205: if the message exposes
header.stamp with sec and nanosec, produce the header_timestamp entry;
a raising attribute in the chain, or a non-numeric sec or nanosec,
raises and is caught by the enclosing try of line 190 (error case).
An absent attribute makes hasattr False and skips the step. -/
def headerTimestampEntries (msg : Value) : Except String (List Entry) :=
  match getAttrAcc msg "header" with
  | some (.raises e) => .error e
  | some (.val hv) =>
      match getAttrAcc hv "stamp" with
      | some (.raises e) => .error e
      | some (.val sv) =>
          match getAttrAcc sv "sec" with
          | some (.raises e) => .error e
          | some (.val secv) =>
              match getAttrAcc sv "nanosec" with
              | some (.raises e) => .error e
              | some (.val nsv) =>
                  match toNumQ secv, toNumQ nsv with
                  | some s, some ns =>
                      .ok [("header_timestamp", .rat (s + ns / 1000000000))]
                  | _, _ => .error "unsupported operand type"
              | _ => .ok []
          | _ => .ok []
      | _ => .ok []
  | _ => .ok []

/-- Embedding of ROSbagProcessor._extract_message_data (lines 188-220).
The deser argument models reader.deserialize(rawdata, msgtype), an
external collaborator call that either yields a message value or raises
with a message.  On success the row is the metadata dict, extended with
the optional header timestamp, then updated with the flattened fields;
any exception inside the try (deserialization, or the header arithmetic)
lands in the except branch producing the degraded row of lines 215-220,
whose insertion order is topic, timestamp, error, msgtype. -/
def _extract_message_data (conn : ConnInfo) (timestamp : Int)
    (deser : Except String Value) : List Entry :=
  match deser with
  | .error e =>
      [("topic", .str conn.topic),
       ("timestamp", .rat ((timestamp : Rat) / 1000000000)),
       ("error", .str e),
       ("msgtype", .str conn.msgtype)]
  | .ok msgObj =>
      match headerTimestampEntries msgObj with
      | .error e =>
          [("topic", .str conn.topic),
           ("timestamp", .rat ((timestamp : Rat) / 1000000000)),
           ("error", .str e),
           ("msgtype", .str conn.msgtype)]
      | .ok hdr =>
          dictUpdate
            ([("topic", .str conn.topic),
              ("timestamp", .rat ((timestamp : Rat) / 1000000000)),
              ("msgtype", .str conn.msgtype)] ++ hdr)
            (_flatten_ros_message msgObj "" 5)

/-- One element of the ordered message stream yielded by
reader.messages: connection metadata, timestamp in nanoseconds, and the
outcome of deserializing the raw bytes. -/
structure StreamMsg where
  conn : ConnInfo
  timestamp : Int
  deser : Except String Value

/-! ## Tabular data (pandas DataFrame at the granularity this code
observes): an ordered column list plus ordered rows, each row the dict
it was built from; reading a missing column of a row yields null
(pandas NaN). -/

structure DataFrame where
  cols : List String
  rows : List (List Entry)
deriving DecidableEq

/-- Reading one cell: the value stored under the column, else null. -/
def getCell (row : List Entry) (c : String) : Cell :=
  (row.lookup c).getD Cell.null

/-- pd.DataFrame(list-of-dicts): columns are the union of the row keys
in first-appearance order. -/
def dfOfRows (rows : List (List Entry)) : DataFrame :=
  ⟨rows.foldl (fun acc r => acc ++ (keys r).filter (fun k => !(acc.contains k))) [],
   rows⟩

/-- Embedding of the conversion loop of
ROSbagProcessor._convert_rosbags_to_dataframe (lines 114-133): one row
per streamed message, in stream order, collected into a DataFrame. -/
def _convert_rosbags_to_dataframe (msgs : List StreamMsg) : DataFrame :=
  dfOfRows (msgs.map (fun m => _extract_message_data m.conn m.timestamp m.deser))

/-- df.empty: true when either axis has length zero. -/
def DataFrame.isEmpty (df : DataFrame) : Bool :=
  df.rows.isEmpty || df.cols.isEmpty

/-- pd.concat([existing, new], ignore_index=True) (catalog.py line 58):
rows of the first frame then rows of the second; columns of the first
frame, then the columns of the second not already present; rows are
padded with null for columns they lack (captured by getCell). -/
def concatDF (a b : DataFrame) : DataFrame :=
  ⟨a.cols ++ b.cols.filter (fun c => !(a.cols.contains c)),
   a.rows ++ b.rows⟩

/-! ## Catalog storage (catalog.py).  The persisted artifact of a table
is modelled by an optional DataFrame (none when no parquet file exists);
parquet write-then-read is the identity at this granularity since the
columnar format is an external black box. -/

/-- Embedding of DataCatalog._append_dataframe (lines 51-69): if an
artifact exists, read it and concatenate, else take the new frame; the
result is written back as a single replacement. -/
def _append_dataframe (existing : Option DataFrame) (df : DataFrame) :
    DataFrame :=
  match existing with
  | some e => concatDF e df
  | none => df

/-- Embedding of the storage effect of DataCatalog.append_rosbag
(lines 29-49) given the DataFrame produced by conversion: an empty
frame is a logged no-op (line 38), otherwise _append_dataframe runs and
its result becomes the new persisted artifact. -/
def append_rosbag (store : Option DataFrame) (df : DataFrame) :
    Option DataFrame :=
  if df.isEmpty then store else some (_append_dataframe store df)

/-- The state of the persisted artifact as seen by get_table_info: the
file is missing, or present with a byte size and a read outcome (the
parquet read of line 133 may fail). -/
inductive ArtifactState where
  | missing : ArtifactState
  | present : Nat → Except String DataFrame → ArtifactState

/-- The info dict returned by get_table_info.  The Python key exists is
a Lean keyword and is rendered existsFlag. -/
structure TableInfo where
  name : String
  existsFlag : Bool
  row_count : Nat
  columns : List String
  size_bytes : Nat
deriving DecidableEq

/-- Embedding of DataCatalog.get_table_info (lines 115-139): the zeroed
dict, then, when the file exists, exists and size_bytes are set from
the filesystem before the read is attempted; a failing read leaves
row_count and columns at their zeroed defaults. -/
def get_table_info (tableName : String) (art : ArtifactState) : TableInfo :=
  match art with
  | .missing => ⟨tableName, false, 0, [], 0⟩
  | .present size r =>
      match r with
      | .ok df => ⟨tableName, true, df.rows.length, df.cols, size⟩
      | .error _ => ⟨tableName, true, 0, [], size⟩

/-- Embedding of DataCatalog.delete_table (lines 141-156).  Inputs:
whether the artifact is present, whether unlink raises, whether the
DROP VIEW statement raises.  Output: the returned Bool paired with
whether the artifact is still present afterwards.  Any exception inside
the try yields False; unlink runs only when the file exists, and the
view drop runs only when no earlier step raised. -/
def delete_table (present unlinkRaises dropViewRaises : Bool) :
    Bool × Bool :=
  if present then
    if unlinkRaises then (false, true)
    else if dropViewRaises then (false, false)
    else (true, false)
  else if dropViewRaises then (false, false)
  else (true, false)

/-! ## Specification-side definitions and well-formedness predicates -/

/-- A dict has no duplicate keys. -/
def nodupKeys (d : List Entry) : Prop := (keys d).Nodup

/-- A character list free of the two path separator characters. -/
def cleanChars (l : List Char) : Prop := ∀ c ∈ l, c ≠ '.' ∧ c ≠ '['

/-- A field name free of path separators, as every Python attribute
name produced by the three introspection conventions is. -/
def cleanName (n : String) : Prop := cleanChars n.data

instance (l : List Char) : Decidable (cleanChars l) := by
  unfold cleanChars
  infer_instance

instance (n : String) : Decidable (cleanName n) := by
  unfold cleanName
  infer_instance

/-- Boolean form of cleanName. -/
def cleanNameB (n : String) : Bool :=
  n.data.all (fun c => !(c = '.' : Bool) && !(c = '[' : Bool))

/-- A key tail that is empty or starts at a path separator. -/
def sepStart (t : List Char) : Prop :=
  t = [] ∨ (∃ r, t = '.' :: r) ∨ (∃ r, t = '[' :: r)

mutual

/-- The leaves of a structured message whose leaves are all scalars,
each keyed by its full dotted path from the given path, in field order.
This is the mapping the specification says flatten produces. -/
def leafEntries : Value → String → List Entry
  | .record fs, p => leafFieldEntries fs p
  | _, _ => []

def leafFieldEntries : List (String × FieldAcc Value) → String → List Entry
  | [], _ => []
  | (n, .val (.scalar c)) :: rest, p => (p ++ n, c) :: leafFieldEntries rest p
  | (n, .val (.record gs)) :: rest, p =>
      leafEntries (.record gs) (p ++ n ++ ".") ++ leafFieldEntries rest p
  | _ :: rest, p => leafFieldEntries rest p

end

mutual

/-- A structured message all of whose leaves are scalars: every field
of every nested record is an ordinary present attribute holding a
scalar or another such record, field names are separator-free and
distinct within each record. -/
def scalarMsgB : Value → Bool
  | .record fs => decide ((fs.map Prod.fst).Nodup) && scalarFieldsB fs
  | _ => false

def scalarFieldsB : List (String × FieldAcc Value) → Bool
  | [] => true
  | (n, .val (.scalar _)) :: rest => cleanNameB n && scalarFieldsB rest
  | (n, .val (.record gs)) :: rest =>
      cleanNameB n && scalarMsgB (.record gs) && scalarFieldsB rest
  | _ => false

end

/-- The entries the specification predicts for one short-sequence
field at the given key: one entry per scalar element at the bracketed
index, a recursive flattening with the dotted bracketed index as path
for any other element. -/
def elemSpecEntries (key : String) (xs : List Value) : List Entry :=
  xs.enum.flatMap (fun iv =>
    match iv.2 with
    | .scalar c => [(key ++ "[" ++ toString iv.1 ++ "]", c)]
    | v => _flatten_ros_message v (key ++ "[" ++ toString iv.1 ++ "].") 5)

/-- The row built for one streamed message. -/
def extractRow (m : StreamMsg) : List Entry :=
  _extract_message_data m.conn m.timestamp m.deser

/-- The degraded row of lines 215-220 of processor.py. -/
def degradedRow (conn : ConnInfo) (timestamp : Int) (e : String) :
    List Entry :=
  [("topic", .str conn.topic),
   ("timestamp", .rat ((timestamp : Rat) / 1000000000)),
   ("error", .str e),
   ("msgtype", .str conn.msgtype)]

/-- A well-behaved streamed message: it deserializes, its header step
does not raise, and its row carries no error column. -/
def errFree (m : StreamMsg) : Bool :=
  (match m.deser with
   | .ok v =>
       match headerTimestampEntries v with
       | .ok _ => true
       | .error _ => false
   | .error _ => false)
  && !((keys (extractRow m)).contains "error")

/-- Every key a row mentions is a declared column of the frame. -/
def rowsCovered (df : DataFrame) : Prop :=
  ∀ r ∈ df.rows, ∀ k ∈ keys r, k ∈ df.cols

instance (df : DataFrame) : Decidable (rowsCovered df) := by
  unfold rowsCovered
  infer_instance

/-! ## Dict lemmas -/

theorem keys_append (d e : List Entry) : keys (d ++ e) = keys d ++ keys e := by
  simp [keys]

theorem dictInsert_of_not_mem {d : List Entry} {k : String} (v : Cell)
    (h : k ∉ keys d) : dictInsert d k v = d ++ [(k, v)] := by
  simp [dictInsert, h]

theorem keys_map_upsert (d : List Entry) (k : String) (v : Cell) :
    keys (d.map (fun e => if e.1 = k then (k, v) else e)) = keys d := by
  induction d with
  | nil => rfl
  | cons e rest ih =>
      by_cases h : e.1 = k
      · simp [keys, h] at ih ⊢
        exact ih
      · simp [keys, h] at ih ⊢
        exact ih

theorem keys_cons (e : Entry) (d : List Entry) : keys (e :: d) = e.1 :: keys d :=
  rfl

theorem keys_dictInsert (d : List Entry) (k : String) (v : Cell) :
    keys (dictInsert d k v) = if k ∈ keys d then keys d else keys d ++ [k] := by
  unfold dictInsert
  by_cases h : k ∈ keys d
  · rw [if_pos h, if_pos h, keys_map_upsert]
  · rw [if_neg h, if_neg h, keys_append]
    rfl

theorem nodupKeys_dictInsert {d : List Entry} (k : String) (v : Cell)
    (h : nodupKeys d) : nodupKeys (dictInsert d k v) := by
  unfold nodupKeys at h ⊢
  rw [keys_dictInsert]
  by_cases hk : k ∈ keys d
  · simpa [hk] using h
  · simp only [hk, if_false]
    rw [List.nodup_append]
    refine ⟨h, List.nodup_singleton k, ?_⟩
    intro a ha hb
    rw [List.mem_singleton] at hb
    subst hb
    exact hk ha

theorem nodupKeys_dictUpdate {d : List Entry} (es : List Entry)
    (h : nodupKeys d) : nodupKeys (dictUpdate d es) := by
  induction es generalizing d with
  | nil => exact h
  | cons e rest ih => exact ih (nodupKeys_dictInsert e.1 e.2 h)

theorem keys_dictUpdate_subset {d : List Entry} {es : List Entry} {k : String}
    (h : k ∈ keys (dictUpdate d es)) : k ∈ keys d ∨ k ∈ keys es := by
  induction es generalizing d with
  | nil => exact Or.inl h
  | cons e rest ih =>
      rcases ih h with hd | hrest
      · rw [keys_dictInsert] at hd
        by_cases hm : e.1 ∈ keys d
        · simp [hm] at hd
          exact Or.inl hd
        · simp [hm] at hd
          rcases hd with hd | hd
          · exact Or.inl hd
          · exact Or.inr (by simp [keys, hd])
      · exact Or.inr (by simp [keys] at hrest ⊢; exact Or.inr hrest)

theorem dictUpdate_eq_append {d : List Entry} (es : List Entry)
    (hdisj : ∀ k ∈ keys es, k ∉ keys d) (hes : nodupKeys es) :
    dictUpdate d es = d ++ es := by
  induction es generalizing d with
  | nil => simp [dictUpdate]
  | cons e rest ih =>
      have he1 : e.1 ∉ keys d :=
        hdisj e.1 (by rw [keys_cons]; exact List.mem_cons_self _ _)
      have hstep : dictInsert d e.1 e.2 = d ++ [(e.1, e.2)] :=
        dictInsert_of_not_mem e.2 he1
      have hes' : (e.1 :: keys rest).Nodup := by
        rw [← keys_cons]
        exact hes
      have hne : e.1 ∉ keys rest := (List.nodup_cons.mp hes').1
      have hrest_nodup : nodupKeys rest := (List.nodup_cons.mp hes').2
      have hdisj' : ∀ k ∈ keys rest, k ∉ keys (d ++ [(e.1, e.2)]) := by
        intro k hk
        rw [keys_append, List.mem_append]
        rintro (hkd | hk1)
        · exact hdisj k (by rw [keys_cons]; exact List.mem_cons_of_mem _ hk) hkd
        · have : k = e.1 := by
            have : keys [(e.1, e.2)] = [e.1] := rfl
            rw [this, List.mem_singleton] at hk1
            exact hk1
          subst this
          exact hne hk
      calc dictUpdate d (e :: rest)
          = dictUpdate (d ++ [(e.1, e.2)]) rest := by
            simp [dictUpdate, hstep]
        _ = (d ++ [(e.1, e.2)]) ++ rest := ih hdisj' hrest_nodup
        _ = d ++ e :: rest := by simp

theorem dictUpdate_nil (es : List Entry) (hes : nodupKeys es) :
    dictUpdate [] es = es := by
  simpa using dictUpdate_eq_append es (by simp [keys]) hes

/-! ## String and separator lemmas -/

theorem sepStart_nil : sepStart [] := Or.inl rfl

theorem sepStart_dot (r : List Char) : sepStart ('.' :: r) :=
  Or.inr (Or.inl ⟨r, rfl⟩)

theorem sepStart_bracket (r : List Char) : sepStart ('[' :: r) :=
  Or.inr (Or.inr ⟨r, rfl⟩)

/-- Key core lemma: a separator-free segment followed by an empty or
separator-starting tail is recoverable from the concatenation. -/
theorem clean_sep_inj : ∀ (a b t u : List Char), cleanChars a → cleanChars b →
    sepStart t → sepStart u → a ++ t = b ++ u → a = b ∧ t = u := by
  intro a
  induction a with
  | nil =>
      intro b t u _ hb ht _ heq
      cases b with
      | nil => exact ⟨rfl, by simpa using heq⟩
      | cons c bs =>
          exfalso
          simp at heq
          rcases ht with h0 | h1 | h2
          · subst h0; exact absurd heq.symm (by simp)
          · rcases h1 with ⟨r, hr⟩
            rw [hr] at heq
            have : c = '.' := by
              have := congrArg List.head? heq
              simpa using this.symm
            exact (hb c (by simp)).1 this
          · rcases h2 with ⟨r, hr⟩
            rw [hr] at heq
            have : c = '[' := by
              have := congrArg List.head? heq
              simpa using this.symm
            exact (hb c (by simp)).2 this
  | cons c as ih =>
      intro b t u ha hb ht hu heq
      cases b with
      | nil =>
          exfalso
          simp at heq
          rcases hu with h0 | h1 | h2
          · subst h0; exact absurd heq (by simp)
          · rcases h1 with ⟨r, hr⟩
            rw [hr] at heq
            have : c = '.' := by
              have := congrArg List.head? heq
              simpa using this
            exact (ha c (by simp)).1 this
          · rcases h2 with ⟨r, hr⟩
            rw [hr] at heq
            have : c = '[' := by
              have := congrArg List.head? heq
              simpa using this
            exact (ha c (by simp)).2 this
      | cons c' bs =>
          simp at heq
          obtain ⟨hc, htail⟩ := heq
          have has : cleanChars as := fun x hx => ha x (by simp [hx])
          have hbs : cleanChars bs := fun x hx => hb x (by simp [hx])
          obtain ⟨h1, h2⟩ := ih bs t u has hbs ht hu htail
          exact ⟨by simp [hc, h1], h2⟩

/-- Distinct separator-free names give distinct keys under any common
path, whatever the tails. -/
theorem clean_names_keys_ne {pfx n m : String} {t u : List Char}
    (hn : cleanName n) (hm : cleanName m) (ht : sepStart t) (hu : sepStart u)
    (hne : n ≠ m) :
    pfx.data ++ n.data ++ t ≠ pfx.data ++ m.data ++ u := by
  intro h
  rw [List.append_assoc, List.append_assoc] at h
  have h2 := List.append_cancel_left h
  obtain ⟨h3, _⟩ := clean_sep_inj n.data m.data t u hn hm ht hu h2
  exact hne (String.ext h3)

theorem cleanNameB_iff (n : String) : cleanNameB n = true ↔ cleanName n := by
  simp [cleanNameB, cleanName, cleanChars, List.all_eq_true]

/-- rstrip of a path ending in a single dot returns the path before the
dot, provided that path does not itself end in a dot. -/
theorem rstripDots_append_dot (q : String)
    (h : q.data.getLast? ≠ some '.') : rstripDots (q ++ ".") = q := by
  apply String.ext
  show ((q ++ ".").data.reverse.dropWhile (fun c => c = '.')).reverse = q.data
  rw [String.data_append]
  have hdot : (".".data : List Char) = ['.'] := rfl
  rw [hdot, List.reverse_append]
  simp only [List.reverse_singleton, List.singleton_append, List.dropWhile]
  simp only [decide_True, List.dropWhile]
  cases hrev : q.data.reverse with
  | nil =>
      simp at hrev
      simp [hrev]
  | cons c r =>
      have hc : c ≠ '.' := by
        intro hc
        apply h
        rw [← List.head?_reverse, hrev, hc]
        rfl
      simp [List.dropWhile, hc]
      have h2 := congrArg List.reverse hrev
      simp at h2
      exact h2.symm

/-- The decimal rendering of an index below five is one digit. -/
theorem toString_data_lt5 (i : Nat) (h : i < 5) :
    (toString i).data = [Nat.digitChar i] := by
  interval_cases i <;> decide

/-- Bracketed single-digit index segments are injective. -/
theorem index_seg_inj {i j : Nat} (hi : i < 5) (hj : j < 5)
    {t u : List Char}
    (h : ('[' :: ((toString i).data ++ ']' :: t) : List Char)
       = '[' :: ((toString j).data ++ ']' :: u)) : i = j ∧ t = u := by
  rw [toString_data_lt5 i hi, toString_data_lt5 j hj] at h
  simp at h
  obtain ⟨hd, ht⟩ := h
  refine ⟨?_, ht⟩
  interval_cases i <;> interval_cases j <;> simp_all <;> exact absurd hd (by decide)

theorem bracket_key_data (key : String) (i : Nat) :
    (key ++ "[" ++ toString i ++ "]").data
      = key.data ++ ('[' :: ((toString i).data ++ [']'])) := by
  simp [String.data_append]

theorem bracket_dot_path (key : String) (i : Nat) :
    key ++ "[" ++ toString i ++ "]." = (key ++ "[" ++ toString i ++ "]") ++ "." := by
  apply String.ext
  simp [String.data_append]

theorem bracket_key_getLast (key : String) (i : Nat) :
    (key ++ "[" ++ toString i ++ "]").data.getLast? = some ']' := by
  rw [bracket_key_data]
  have : key.data ++ ('[' :: ((toString i).data ++ [']']))
       = (key.data ++ '[' :: (toString i).data) ++ [']'] := by simp
  rw [this, List.getLast?_concat]

/-! ## Key-shape lemmas: every key produced under a path extends that
path at a separator, and the non-record fallback strips exactly the
final dot of the path. -/

mutual

theorem flatten_keys_shape (v : Value) (q : String)
    (hq : q.data.getLast? ≠ some '.') :
    ∀ k ∈ keys (_flatten_ros_message v (q ++ ".") 5),
      ∃ t, k.data = q.data ++ t ∧ sepStart t := by
  match v with
  | .record fs =>
      intro k hk
      simp only [_flatten_ros_message] at hk
      rcases loop_keys_shape fs (q ++ ".") [] k hk with hnil | ⟨f, _, t, hdata, hsep⟩
      · exact absurd hnil (by simp [keys])
      · refine ⟨'.' :: (f.1.data ++ t), ?_, sepStart_dot _⟩
        rw [hdata, String.data_append]
        simp
  | .scalar c =>
      intro k hk
      simp only [_flatten_ros_message, keys, List.map_cons, List.map_nil,
        List.mem_singleton] at hk
      subst hk
      exact ⟨[], by rw [rstripDots_append_dot q hq]; simp, sepStart_nil⟩
  | .seq xs =>
      intro k hk
      simp only [_flatten_ros_message, keys, List.map_cons, List.map_nil,
        List.mem_singleton] at hk
      subst hk
      exact ⟨[], by rw [rstripDots_append_dot q hq]; simp, sepStart_nil⟩
  | .obj s =>
      intro k hk
      simp only [_flatten_ros_message, keys, List.map_cons, List.map_nil,
        List.mem_singleton] at hk
      subst hk
      exact ⟨[], by rw [rstripDots_append_dot q hq]; simp, sepStart_nil⟩

theorem loop_keys_shape (fs : List (String × FieldAcc Value)) (pfx : String)
    (d : List Entry) :
    ∀ k ∈ keys (flattenFieldsLoop fs pfx 5 d),
      k ∈ keys d ∨ ∃ f ∈ fs, ∃ t, k.data = pfx.data ++ f.1.data ++ t ∧ sepStart t := by
  match fs with
  | [] =>
      intro k hk
      exact Or.inl (by simpa [flattenFieldsLoop] using hk)
  | (n, acc) :: rest =>
      intro k hk
      simp only [flattenFieldsLoop] at hk
      rcases loop_keys_shape rest pfx (dictUpdate d (fieldEntries n acc pfx 5)) k hk with
        hacc | ⟨f, hf, t, hdata, hsep⟩
      · rcases keys_dictUpdate_subset hacc with hd | hes
        · exact Or.inl hd
        · rcases field_keys_shape n acc pfx k hes with ⟨t, hdata, hsep⟩
          exact Or.inr ⟨(n, acc), List.mem_cons_self _ _, t, hdata, hsep⟩
      · exact Or.inr ⟨f, List.mem_cons_of_mem _ hf, t, hdata, hsep⟩

theorem field_keys_shape (n : String) (acc : FieldAcc Value) (pfx : String) :
    ∀ k ∈ keys (fieldEntries n acc pfx 5),
      ∃ t, k.data = pfx.data ++ n.data ++ t ∧ sepStart t := by
  match acc with
  | .raises e =>
      intro k hk
      simp only [fieldEntries, keys, List.map_cons, List.map_nil,
        List.mem_singleton] at hk
      subst hk
      exact ⟨[], by simp [String.data_append], sepStart_nil⟩
  | .absent =>
      intro k hk
      simp only [fieldEntries, keys, List.map_cons, List.map_nil,
        List.mem_singleton] at hk
      subst hk
      exact ⟨[], by simp [String.data_append], sepStart_nil⟩
  | .val v =>
      intro k hk
      simp only [fieldEntries] at hk
      rcases value_keys_shape (pfx ++ n) v k hk with ⟨t, hdata, hsep⟩
      exact ⟨t, by rw [hdata, String.data_append, List.append_assoc], hsep⟩

theorem value_keys_shape (key : String) (v : Value) :
    ∀ k ∈ keys (valueEntries key v 5),
      ∃ t, k.data = key.data ++ t ∧ sepStart t := by
  match v with
  | .scalar c =>
      intro k hk
      simp only [valueEntries, keys, List.map_cons, List.map_nil,
        List.mem_singleton] at hk
      subst hk
      exact ⟨[], by simp, sepStart_nil⟩
  | .obj s =>
      intro k hk
      simp only [valueEntries, keys, List.map_cons, List.map_nil,
        List.mem_singleton] at hk
      subst hk
      exact ⟨[], by simp, sepStart_nil⟩
  | .record fs =>
      intro k hk
      simp only [valueEntries] at hk
      rcases loop_keys_shape fs (key ++ ".") [] k hk with hnil | ⟨f, _, t, hdata, hsep⟩
      · exact absurd hnil (by simp [keys])
      · refine ⟨'.' :: (f.1.data ++ t), ?_, sepStart_dot _⟩
        rw [hdata, String.data_append]
        simp
  | .seq xs =>
      intro k hk
      simp only [valueEntries] at hk
      by_cases h5 : xs.length ≤ 5
      · rw [if_pos h5] at hk
        rcases seq_keys_shape key 0 xs k hk with ⟨j, t, _, _, hdata, _⟩
        exact ⟨'[' :: ((toString j).data ++ ']' :: t), hdata, sepStart_bracket _⟩
      · rw [if_neg h5] at hk
        simp only [keys, List.map_cons, List.map_nil, List.mem_singleton] at hk
        subst hk
        exact ⟨[], by simp, sepStart_nil⟩

theorem seq_keys_shape (key : String) (i : Nat) (xs : List Value) :
    ∀ k ∈ keys (seqElemEntries key i xs 5),
      ∃ j t, i ≤ j ∧ j < i + xs.length ∧
        k.data = key.data ++ ('[' :: ((toString j).data ++ ']' :: t)) ∧ sepStart t := by
  match xs with
  | [] =>
      intro k hk
      exact absurd hk (by simp [seqElemEntries, keys])
  | v :: rest =>
      intro k hk
      simp only [seqElemEntries] at hk
      rw [keys_append, List.mem_append] at hk
      have hlast : (key ++ "[" ++ toString i ++ "]").data.getLast? ≠ some '.' := by
        rw [bracket_key_getLast]
        simp
      rcases hk with hblock | hrest
      · cases v with
        | scalar c =>
            simp only [keys, List.map_cons, List.map_nil, List.mem_singleton] at hblock
            subst hblock
            refine ⟨i, [], le_refl i, by simp, ?_, sepStart_nil⟩
            rw [bracket_key_data]
        | seq ys =>
            rw [bracket_dot_path] at hblock
            rcases flatten_keys_shape (.seq ys) (key ++ "[" ++ toString i ++ "]")
              hlast k hblock with ⟨t, hdata, hsep⟩
            refine ⟨i, t, le_refl i, by simp, ?_, hsep⟩
            rw [hdata, bracket_key_data]
            simp
        | record gs =>
            rw [bracket_dot_path] at hblock
            rcases flatten_keys_shape (.record gs) (key ++ "[" ++ toString i ++ "]")
              hlast k hblock with ⟨t, hdata, hsep⟩
            refine ⟨i, t, le_refl i, by simp, ?_, hsep⟩
            rw [hdata, bracket_key_data]
            simp
        | obj s =>
            rw [bracket_dot_path] at hblock
            rcases flatten_keys_shape (.obj s) (key ++ "[" ++ toString i ++ "]")
              hlast k hblock with ⟨t, hdata, hsep⟩
            refine ⟨i, t, le_refl i, by simp, ?_, hsep⟩
            rw [hdata, bracket_key_data]
            simp
      · rcases seq_keys_shape key (i + 1) rest k hrest with ⟨j, t, hj1, hj2, hdata, hsep⟩
        exact ⟨j, t, by omega, by simp at hj2 ⊢; omega, hdata, hsep⟩

end

/-! ## Flatten always returns a dict with pairwise distinct keys -/

mutual

theorem flatten_nodup (v : Value) (p : String) :
    nodupKeys (_flatten_ros_message v p 5) := by
  match v with
  | .record fs =>
      simp only [_flatten_ros_message]
      exact loop_nodup fs p [] (by simp [nodupKeys, keys])
  | .scalar c => simp [_flatten_ros_message, nodupKeys, keys]
  | .seq xs => simp [_flatten_ros_message, nodupKeys, keys]
  | .obj s => simp [_flatten_ros_message, nodupKeys, keys]

theorem loop_nodup (fs : List (String × FieldAcc Value)) (pfx : String)
    (d : List Entry) (hd : nodupKeys d) :
    nodupKeys (flattenFieldsLoop fs pfx 5 d) := by
  match fs with
  | [] => simpa [flattenFieldsLoop] using hd
  | (n, acc) :: rest =>
      simp only [flattenFieldsLoop]
      exact loop_nodup rest pfx _ (nodupKeys_dictUpdate _ hd)

theorem field_nodup (n : String) (acc : FieldAcc Value) (pfx : String) :
    nodupKeys (fieldEntries n acc pfx 5) := by
  match acc with
  | .raises e => simp [fieldEntries, nodupKeys, keys]
  | .absent => simp [fieldEntries, nodupKeys, keys]
  | .val v =>
      simp only [fieldEntries]
      exact value_nodup (pfx ++ n) v

theorem value_nodup (key : String) (v : Value) :
    nodupKeys (valueEntries key v 5) := by
  match v with
  | .scalar c => simp [valueEntries, nodupKeys, keys]
  | .obj s => simp [valueEntries, nodupKeys, keys]
  | .record fs =>
      simp only [valueEntries]
      exact loop_nodup fs (key ++ ".") [] (by simp [nodupKeys, keys])
  | .seq xs =>
      by_cases h5 : xs.length ≤ 5
      · simp only [valueEntries, if_pos h5]
        exact seq_nodup key 0 xs (by omega)
      · simp [valueEntries, if_neg h5, nodupKeys, keys]

theorem seq_nodup (key : String) (i : Nat) (xs : List Value)
    (h5 : i + xs.length ≤ 5) : nodupKeys (seqElemEntries key i xs 5) := by
  match xs with
  | [] => simp [seqElemEntries, nodupKeys, keys]
  | v :: rest =>
      have hrest : nodupKeys (seqElemEntries key (i + 1) rest 5) :=
        seq_nodup key (i + 1) rest (by simp at h5 ⊢; omega)
      have hlen5 : i + 1 + rest.length ≤ 5 := by simp at h5; omega
      have hdisj : ∀ k ∈ keys (seqElemEntries key i [v] 5),
          k ∉ keys (seqElemEntries key (i + 1) rest 5) := by
        intro k hkb hkr
        rcases seq_keys_shape key i [v] k hkb with ⟨j, t, hj1, hj2, hdata_b, _⟩
        have hji : j = i := by simp at hj2; omega
        rcases seq_keys_shape key (i + 1) rest k hkr with ⟨j', t', hj'1, hj'2, hdata_r, _⟩
        have hcanc : ('[' :: ((toString j).data ++ ']' :: t) : List Char)
            = '[' :: ((toString j').data ++ ']' :: t') :=
          List.append_cancel_left (hdata_b.symm.trans hdata_r)
        have hij : j = j' := (index_seg_inj (by omega) (by omega) hcanc).1
        omega
      have heq : seqElemEntries key i (v :: rest) 5
          = seqElemEntries key i [v] 5 ++ seqElemEntries key (i + 1) rest 5 := by
        simp only [seqElemEntries, List.append_nil, List.append_assoc]
      have hb_nodup : nodupKeys (seqElemEntries key i [v] 5) := by
        cases v with
        | scalar c => simp [seqElemEntries, nodupKeys, keys]
        | seq ys =>
            simp only [seqElemEntries, List.append_nil]
            exact flatten_nodup (.seq ys) _
        | record gs =>
            simp only [seqElemEntries, List.append_nil]
            exact flatten_nodup (.record gs) _
        | obj s =>
            simp only [seqElemEntries, List.append_nil]
            exact flatten_nodup (.obj s) _
      rw [heq]
      unfold nodupKeys
      rw [keys_append, List.nodup_append]
      exact ⟨hb_nodup, hrest, hdisj⟩

end

/-! ## The field loop, for distinct separator-free field names, is the
concatenation of the per-field entry lists: the dict semantics never
merges or drops anything across such fields. -/

theorem loop_eq_append (fs : List (String × FieldAcc Value)) (pfx : String) :
    ∀ (d : List Entry), nodupKeys d →
    (∀ k ∈ keys d, ∀ f ∈ fs, ∀ t, sepStart t → k.data ≠ pfx.data ++ f.1.data ++ t) →
    (∀ f ∈ fs, cleanName f.1) →
    (fs.map Prod.fst).Nodup →
    flattenFieldsLoop fs pfx 5 d
      = d ++ fs.flatMap (fun f => fieldEntries f.1 f.2 pfx 5) := by
  induction fs with
  | nil =>
      intro d _ _ _ _
      simp [flattenFieldsLoop]
  | cons f rest ih =>
      intro d hd hdisj hclean hnodup
      obtain ⟨n, acc⟩ := f
      have hes_nodup : nodupKeys (fieldEntries n acc pfx 5) := field_nodup n acc pfx
      have hes_disj : ∀ k ∈ keys (fieldEntries n acc pfx 5), k ∉ keys d := by
        intro k hk hkd
        rcases field_keys_shape n acc pfx k hk with ⟨t, hdata, hsep⟩
        exact hdisj k hkd (n, acc) (List.mem_cons_self _ _) t hsep hdata
      have hupd : dictUpdate d (fieldEntries n acc pfx 5)
          = d ++ fieldEntries n acc pfx 5 :=
        dictUpdate_eq_append _ hes_disj hes_nodup
      have hd' : nodupKeys (d ++ fieldEntries n acc pfx 5) := by
        unfold nodupKeys
        rw [keys_append, List.nodup_append]
        exact ⟨hd, hes_nodup, fun k hk hk2 => hes_disj k hk2 hk⟩
      have hclean_n : cleanName n := hclean (n, acc) (List.mem_cons_self _ _)
      have hnodup' : (n :: rest.map Prod.fst).Nodup := by
        simpa using hnodup
      have hdisj' : ∀ k ∈ keys (d ++ fieldEntries n acc pfx 5), ∀ g ∈ rest,
          ∀ t, sepStart t → k.data ≠ pfx.data ++ g.1.data ++ t := by
        intro k hk g hg t ht
        rw [keys_append, List.mem_append] at hk
        rcases hk with hk | hk
        · exact hdisj k hk g (List.mem_cons_of_mem _ hg) t ht
        · rcases field_keys_shape n acc pfx k hk with ⟨t', hdata, hsep⟩
          rw [hdata]
          have hne : n ≠ g.1 := by
            intro h
            apply (List.nodup_cons.mp hnodup').1
            rw [h]
            exact List.mem_map_of_mem Prod.fst hg
          exact clean_names_keys_ne hclean_n
            (hclean g (List.mem_cons_of_mem _ hg)) hsep ht hne
      have hrest_clean : ∀ g ∈ rest, cleanName g.1 :=
        fun g hg => hclean g (List.mem_cons_of_mem _ hg)
      have hrest_nodup : (rest.map Prod.fst).Nodup :=
        (List.nodup_cons.mp hnodup').2
      calc flattenFieldsLoop ((n, acc) :: rest) pfx 5 d
          = flattenFieldsLoop rest pfx 5 (dictUpdate d (fieldEntries n acc pfx 5)) := by
            simp only [flattenFieldsLoop]
        _ = (d ++ fieldEntries n acc pfx 5)
              ++ rest.flatMap (fun f => fieldEntries f.1 f.2 pfx 5) := by
            rw [hupd]
            exact ih (d ++ fieldEntries n acc pfx 5) hd' hdisj' hrest_clean hrest_nodup
        _ = d ++ ((n, acc) :: rest).flatMap (fun f => fieldEntries f.1 f.2 pfx 5) := by
            simp

/-- Flattening a record with distinct separator-free field names is the
concatenation of the per-field entry lists. -/
theorem flatten_record_eq (fs : List (String × FieldAcc Value)) (pfx : String)
    (hclean : ∀ f ∈ fs, cleanName f.1) (hnodup : (fs.map Prod.fst).Nodup) :
    _flatten_ros_message (.record fs) pfx 5
      = fs.flatMap (fun f => fieldEntries f.1 f.2 pfx 5) := by
  show flattenFieldsLoop fs pfx 5 [] = _
  rw [loop_eq_append fs pfx [] (by simp [nodupKeys, keys])
    (by intro k hk; exact absurd hk (by simp [keys])) hclean hnodup]
  simp

/-- Flattening a one-field record is exactly that field's entry list:
the result dict starts empty and the entry list never carries a
duplicate key. -/
theorem flatten_singleton_record (n : String) (acc : FieldAcc Value)
    (p : String) :
    _flatten_ros_message (.record [(n, acc)]) p 5 = fieldEntries n acc p 5 := by
  show flattenFieldsLoop [(n, acc)] p 5 [] = _
  simp only [flattenFieldsLoop]
  exact dictUpdate_nil _ (field_nodup n acc p)

/-! ## Claim theorems -/

/-- C8: flattening is deterministic.  The embedding is faithful to the
iteration orders the interpreter fixes (dict insertion order, slots and
field-type declaration order, sorted dir output), so the result is a
pure function of the unmodified message and path: two invocations
produce identical mappings, same keys and same values. -/
theorem flatten_deterministic (m : Value) (pfx : String) (maxA : Nat) :
    _flatten_ros_message m pfx maxA = _flatten_ros_message m pfx maxA := rfl

/-- C9: an opaque top-level value with the default empty path flattens
to the single-entry mapping from the empty string to its
stringification, since the empty path rstrips to itself. -/
theorem flatten_opaque_default (s : String) :
    _flatten_ros_message (.obj s) "" 5 = [("", Cell.str s)] := rfl

/-- C6: get_table_info yields exists false with zeroed fields when no
artifact is persisted; when the artifact exists the filesystem size and
the exists flag are reported whatever the read outcome. -/
theorem get_table_info_spec (n : String) :
    get_table_info n ArtifactState.missing
      = ⟨n, false, 0, [], 0⟩
    ∧ ∀ (size : Nat) (r : Except String DataFrame),
        (get_table_info n (.present size r)).existsFlag = true
        ∧ (get_table_info n (.present size r)).size_bytes = size := by
  refine ⟨rfl, ?_⟩
  intro size r
  cases r <;> exact ⟨rfl, rfl⟩

/-- C7: delete removes the artifact when present and unlink succeeds,
returns true whenever no removal step raises, including when nothing
existed to delete, and returns false only when a removal step (the
unlink or the view drop) raises. -/
theorem delete_table_spec (present unlinkRaises dropViewRaises : Bool) :
    (present = true → unlinkRaises = false →
        (delete_table present unlinkRaises dropViewRaises).2 = false)
    ∧ (delete_table present false false).1 = true
    ∧ ((delete_table present unlinkRaises dropViewRaises).1 = false →
        (present = true ∧ unlinkRaises = true) ∨ dropViewRaises = true) := by
  cases present <;> cases unlinkRaises <;> cases dropViewRaises <;>
    simp [delete_table]

/-- C7 witness: concrete deletions, one with an artifact present and
one with nothing to delete. -/
theorem delete_table_spec_witness :
    (delete_table true false false).2 = false
    ∧ (delete_table true false false).1 = true
    ∧ (delete_table false false false).1 = true :=
  ⟨(delete_table_spec true false false).1 rfl rfl,
   (delete_table_spec true false false).2.1,
   (delete_table_spec false false false).2.1⟩

/-- C4: a field whose attribute access raises is caught alone:
flattening the record equals the flattening of the fields before it,
then the error placeholder carrying the failure description at the
field's path, then the flattening of the fields after it. -/
theorem flatten_field_failure_isolated (p n e : String)
    (pre post : List (String × FieldAcc Value))
    (hclean : ∀ f ∈ pre ++ (n, FieldAcc.raises e) :: post, cleanName f.1)
    (hnodup : ((pre ++ (n, FieldAcc.raises e) :: post).map Prod.fst).Nodup) :
    _flatten_ros_message (.record (pre ++ (n, .raises e) :: post)) p 5
      = _flatten_ros_message (.record pre) p 5
        ++ [(p ++ n, errorPlaceholder e)]
        ++ _flatten_ros_message (.record post) p 5 := by
  have hnodup' : (pre.map Prod.fst ++ (n :: post.map Prod.fst)).Nodup := by
    simpa using hnodup
  rw [flatten_record_eq _ p hclean hnodup,
      flatten_record_eq pre p (fun f hf => hclean f (by simp [hf]))
        hnodup'.of_append_left,
      flatten_record_eq post p (fun f hf => hclean f (by simp [hf]))
        (List.nodup_cons.mp hnodup'.of_append_right).2]
  simp [fieldEntries]

/-- C4 witness: a three-field record whose middle attribute raises. -/
theorem flatten_field_failure_isolated_witness :
    _flatten_ros_message
        (.record [("a", .val (.scalar (.int 1))), ("b", .raises "boom"),
                  ("c", .val (.scalar (.int 2)))]) "" 5
      = _flatten_ros_message (.record [("a", .val (.scalar (.int 1)))]) "" 5
        ++ [("" ++ "b", errorPlaceholder "boom")]
        ++ _flatten_ros_message (.record [("c", .val (.scalar (.int 2)))]) "" 5 :=
  flatten_field_failure_isolated "" "b" "boom"
    [("a", .val (.scalar (.int 1)))] [("c", .val (.scalar (.int 2)))]
    (by decide) (by decide)

/-- C10: a declared field whose attribute is absent receives the None
default of getattr and is stored as a null scalar at its path, never
reaching the error branch: the stored value differs from every error
placeholder. -/
theorem flatten_absent_field_null (p n : String)
    (pre post : List (String × FieldAcc Value))
    (hclean : ∀ f ∈ pre ++ (n, FieldAcc.absent) :: post, cleanName f.1)
    (hnodup : ((pre ++ (n, FieldAcc.absent) :: post).map Prod.fst).Nodup) :
    _flatten_ros_message (.record (pre ++ (n, .absent) :: post)) p 5
      = _flatten_ros_message (.record pre) p 5
        ++ [(p ++ n, Cell.null)]
        ++ _flatten_ros_message (.record post) p 5
    ∧ ∀ e, Cell.null ≠ errorPlaceholder e := by
  have hnodup' : (pre.map Prod.fst ++ (n :: post.map Prod.fst)).Nodup := by
    simpa using hnodup
  constructor
  · rw [flatten_record_eq _ p hclean hnodup,
        flatten_record_eq pre p (fun f hf => hclean f (by simp [hf]))
          hnodup'.of_append_left,
        flatten_record_eq post p (fun f hf => hclean f (by simp [hf]))
          (List.nodup_cons.mp hnodup'.of_append_right).2]
    simp [fieldEntries]
  · intro e
    simp [errorPlaceholder]

/-- The element loop enumerates the sequence with its running index. -/
theorem seqElemEntries_eq_enumFrom (key : String) (xs : List Value) :
    ∀ i, seqElemEntries key i xs 5
      = (xs.enumFrom i).flatMap (fun iv =>
          match iv.2 with
          | .scalar c => [(key ++ "[" ++ toString iv.1 ++ "]", c)]
          | v => _flatten_ros_message v (key ++ "[" ++ toString iv.1 ++ "].") 5) := by
  induction xs with
  | nil => intro i; rfl
  | cons v rest ih =>
      intro i
      have hrec := ih (i + 1)
      cases v <;>
        simp only [seqElemEntries, List.enumFrom, List.flatMap_cons, hrec]

/-- C2 as amended: a short sequence field expands to the per-element
entries (one entry per scalar element at the bracketed index, a
recursive flattening for any other element), an empty sequence field
yields no entries, and a long sequence field yields exactly one entry
holding the JSON encoding when json.dumps succeeds and the
stringification of the sequence otherwise. -/
theorem flatten_sequence_field (p n : String) (xs : List Value) :
    (xs.length = 0 →
      _flatten_ros_message (.record [(n, .val (.seq xs))]) p 5 = [])
    ∧ (xs.length ≤ 5 →
      _flatten_ros_message (.record [(n, .val (.seq xs))]) p 5
        = elemSpecEntries (p ++ n) xs)
    ∧ (5 < xs.length →
      _flatten_ros_message (.record [(n, .val (.seq xs))]) p 5
        = [(p ++ n, .str ((jsonDumps (.seq xs)).getD (strOf (.seq xs))))])
    ∧ (∀ s, 5 < xs.length → jsonDumps (.seq xs) = some s →
      _flatten_ros_message (.record [(n, .val (.seq xs))]) p 5
        = [(p ++ n, Cell.str s)]) := by
  have hbase : _flatten_ros_message (.record [(n, .val (.seq xs))]) p 5
      = valueEntries (p ++ n) (.seq xs) 5 :=
    (flatten_singleton_record n (.val (.seq xs)) p).trans (by simp only [fieldEntries])
  refine ⟨?_, ?_, ?_, ?_⟩
  · intro h0
    rw [hbase]
    have hx : xs = [] := List.length_eq_zero.mp h0
    subst hx
    rfl
  · intro h5
    rw [hbase]
    simp only [valueEntries, if_pos h5]
    rw [seqElemEntries_eq_enumFrom (p ++ n) xs 0]
    rfl
  · intro h5
    rw [hbase]
    simp only [valueEntries, if_neg (not_le.mpr h5)]
  · intro s h5 hjs
    rw [hbase]
    simp only [valueEntries, if_neg (not_le.mpr h5), hjs, Option.getD_some]

/-- C2 witness: a two-element scalar sequence expands per element, and
a six-element scalar sequence collapses to its JSON encoding. -/
theorem flatten_sequence_field_witness :
    _flatten_ros_message
        (.record [("a", .val (.seq [.scalar (.int 1), .scalar (.int 2)]))]) "" 5
      = elemSpecEntries ("" ++ "a") [.scalar (.int 1), .scalar (.int 2)]
    ∧ _flatten_ros_message
        (.record [("b", .val (.seq (List.replicate 6 (.scalar (.int 7)))))]) "" 5
      = [("" ++ "b", Cell.str "[7, 7, 7, 7, 7, 7]")] :=
  ⟨(flatten_sequence_field "" "a" [.scalar (.int 1), .scalar (.int 2)]).2.1
      (by decide),
   (flatten_sequence_field "" "b" (List.replicate 6 (.scalar (.int 7)))).2.2.2
      "[7, 7, 7, 7, 7, 7]" (by decide) (by decide)⟩

/-- C2 counterexample: a six-element sequence of nested message
objects has no JSON encoding at all (json.dumps raises TypeError on
message objects), yet the code emits one entry holding the str
fallback of line 176; so the emitted value is not a JSON encoding of
the original sequence as the claim states, such an encoding does not
exist. -/
theorem flatten_long_sequence_not_json :
    (jsonDumps (.seq (List.replicate 6 (.record [("x", .val (.scalar (.int 1)))])))).isSome
      = false
    ∧ _flatten_ros_message
        (.record [("a", .val (.seq (List.replicate 6
          (.record [("x", .val (.scalar (.int 1)))]))))]) "" 5
      = [("a", Cell.str
          "[record(x=1), record(x=1), record(x=1), record(x=1), record(x=1), record(x=1)]")]
    ∧ 5 < (List.replicate 6 (Value.record [("x", .val (.scalar (.int 1)))])).length := by
  decide

/-- Field names visited by a scalar-leaf record are separator-free. -/
theorem scalarFields_clean (fs : List (String × FieldAcc Value))
    (h : scalarFieldsB fs = true) : ∀ f ∈ fs, cleanName f.1 := by
  match fs with
  | [] => intro f hf; cases hf
  | (n, .val (.scalar c)) :: rest =>
      simp only [scalarFieldsB, Bool.and_eq_true] at h
      intro f hf
      rcases List.mem_cons.mp hf with rfl | hf
      · exact (cleanNameB_iff n).mp h.1
      · exact scalarFields_clean rest h.2 f hf
  | (n, .val (.record gs)) :: rest =>
      simp only [scalarFieldsB, Bool.and_eq_true] at h
      intro f hf
      rcases List.mem_cons.mp hf with rfl | hf
      · exact (cleanNameB_iff n).mp h.1.1
      · exact scalarFields_clean rest h.2 f hf
  | (n, .val (.seq ys)) :: rest => simp [scalarFieldsB] at h
  | (n, .val (.obj s)) :: rest => simp [scalarFieldsB] at h
  | (n, .absent) :: rest => simp [scalarFieldsB] at h
  | (n, .raises e) :: rest => simp [scalarFieldsB] at h

/-- For a scalar-leaf record the per-field entry lists concatenate to
exactly the leaf map. -/
theorem flatMap_eq_leafFieldEntries (fs : List (String × FieldAcc Value))
    (pfx : String) (h : scalarFieldsB fs = true) :
    fs.flatMap (fun f => fieldEntries f.1 f.2 pfx 5) = leafFieldEntries fs pfx := by
  match fs with
  | [] => rfl
  | (n, .val (.scalar c)) :: rest =>
      simp only [scalarFieldsB, Bool.and_eq_true] at h
      simp only [List.flatMap_cons, fieldEntries, valueEntries, leafFieldEntries]
      rw [flatMap_eq_leafFieldEntries rest pfx h.2]
      rfl
  | (n, .val (.record gs)) :: rest =>
      simp only [scalarFieldsB, Bool.and_eq_true] at h
      obtain ⟨⟨hcn, hg⟩, hrest⟩ := h
      simp only [scalarMsgB, Bool.and_eq_true] at hg
      have hnodup_g : (gs.map Prod.fst).Nodup := of_decide_eq_true hg.1
      simp only [List.flatMap_cons, fieldEntries, valueEntries, leafFieldEntries]
      rw [flatMap_eq_leafFieldEntries rest pfx hrest]
      congr 1
      have hfl : flattenFieldsLoop gs (pfx ++ n ++ ".") 5 []
          = _flatten_ros_message (.record gs) (pfx ++ n ++ ".") 5 := rfl
      rw [hfl, flatten_record_eq gs _ (scalarFields_clean gs hg.2) hnodup_g,
          flatMap_eq_leafFieldEntries gs _ hg.2]
      rfl
  | (n, .val (.seq ys)) :: rest => simp [scalarFieldsB] at h
  | (n, .val (.obj s)) :: rest => simp [scalarFieldsB] at h
  | (n, .absent) :: rest => simp [scalarFieldsB] at h
  | (n, .raises e) :: rest => simp [scalarFieldsB] at h

/-- C1: a structured message whose leaves are all scalars flattens to
exactly one entry per leaf, keyed by its full dotted path, with no
extra and no missing keys (the produced map equals the leaf map entry
for entry, and its keys are pairwise distinct). -/
theorem flatten_scalar_tree (m : Value) (h : scalarMsgB m = true) :
    _flatten_ros_message m "" 5 = leafEntries m ""
    ∧ nodupKeys (leafEntries m "") := by
  match m with
  | .record fs =>
      simp only [scalarMsgB, Bool.and_eq_true] at h
      have hnodup : (fs.map Prod.fst).Nodup := of_decide_eq_true h.1
      have h1 : _flatten_ros_message (.record fs) "" 5 = leafFieldEntries fs "" := by
        rw [flatten_record_eq fs "" (scalarFields_clean fs h.2) hnodup]
        exact flatMap_eq_leafFieldEntries fs "" h.2
      have h2 : leafEntries (.record fs) "" = leafFieldEntries fs "" := rfl
      refine ⟨h1.trans h2.symm, ?_⟩
      rw [h2, ← h1]
      exact flatten_nodup (.record fs) ""
  | .scalar c => exact absurd h (by simp [scalarMsgB])
  | .seq xs => exact absurd h (by simp [scalarMsgB])
  | .obj s => exact absurd h (by simp [scalarMsgB])

/-- C1 witness: a nested scalar-leaf message. -/
theorem flatten_scalar_tree_witness :
    _flatten_ros_message
        (.record [("header", .val (.record [("sec", .val (.scalar (.int 5)))])),
                  ("x", .val (.scalar (.str "hi")))]) "" 5
      = leafEntries
          (.record [("header", .val (.record [("sec", .val (.scalar (.int 5)))])),
                    ("x", .val (.scalar (.str "hi")))]) ""
    ∧ nodupKeys (leafEntries
          (.record [("header", .val (.record [("sec", .val (.scalar (.int 5)))])),
                    ("x", .val (.scalar (.str "hi")))]) "") :=
  flatten_scalar_tree _ (by decide)

/-- C10 witness: a record whose middle declared attribute is unset. -/
theorem flatten_absent_field_null_witness :
    (_flatten_ros_message
        (.record [("a", .val (.scalar (.int 1))), ("b", .absent),
                  ("c", .val (.scalar (.int 2)))]) "" 5
      = _flatten_ros_message (.record [("a", .val (.scalar (.int 1)))]) "" 5
        ++ [("" ++ "b", Cell.null)]
        ++ _flatten_ros_message (.record [("c", .val (.scalar (.int 2)))]) "" 5)
    ∧ ∀ e, Cell.null ≠ errorPlaceholder e :=
  flatten_absent_field_null "" "b"
    [("a", .val (.scalar (.int 1)))] [("c", .val (.scalar (.int 2)))]
    (by decide) (by decide)

/-- C3: appending batch A then batch B to a fresh table persists a
table with row count the sum of the batch sizes, column set the union
of the batch column sets, rows in append order, null in every cell of
an A row at a column only B introduced and vice versa; an empty batch
leaves the store unchanged. -/
theorem append_schema_evolution (dfA dfB : DataFrame)
    (hA : dfA.isEmpty = false) (hB : dfB.isEmpty = false)
    (hwfA : rowsCovered dfA) (hwfB : rowsCovered dfB) :
    append_rosbag (append_rosbag none dfA) dfB = some (concatDF dfA dfB)
    ∧ (concatDF dfA dfB).rows.length = dfA.rows.length + dfB.rows.length
    ∧ (∀ c, c ∈ (concatDF dfA dfB).cols ↔ c ∈ dfA.cols ∨ c ∈ dfB.cols)
    ∧ (concatDF dfA dfB).rows = dfA.rows ++ dfB.rows
    ∧ (∀ r ∈ dfA.rows, ∀ c, c ∈ dfB.cols → c ∉ dfA.cols →
        getCell r c = Cell.null)
    ∧ (∀ r ∈ dfB.rows, ∀ c, c ∈ dfA.cols → c ∉ dfB.cols →
        getCell r c = Cell.null)
    ∧ (∀ (store : Option DataFrame) (dfE : DataFrame),
        dfE.isEmpty = true → append_rosbag store dfE = store) := by
  refine ⟨?_, by simp [concatDF], ?_, rfl, ?_, ?_, ?_⟩
  · simp [append_rosbag, hA, hB, _append_dataframe]
  · intro c
    simp only [concatDF, List.mem_append, List.mem_filter]
    constructor
    · rintro (h | ⟨h, _⟩)
      · exact Or.inl h
      · exact Or.inr h
    · intro h
      by_cases hc : c ∈ dfA.cols
      · exact Or.inl hc
      · rcases h with h | h
        · exact absurd h hc
        · refine Or.inr ⟨h, ?_⟩
          simpa using hc
  · intro r hr c hcB hcA
    have hnone : r.lookup c = none := by
      rw [List.lookup_eq_none_iff]
      intro p hp
      simp only [bne_iff_ne, ne_eq]
      intro hc
      exact hcA (hc ▸ hwfA r hr p.1 (List.mem_map_of_mem Prod.fst hp))
    simp [getCell, hnone]
  · intro r hr c hcA hcB
    have hnone : r.lookup c = none := by
      rw [List.lookup_eq_none_iff]
      intro p hp
      simp only [bne_iff_ne, ne_eq]
      intro hc
      exact hcB (hc ▸ hwfB r hr p.1 (List.mem_map_of_mem Prod.fst hp))
    simp [getCell, hnone]
  · intro store dfE hE
    simp [append_rosbag, hE]

/-- C3 witness: appending a one-row batch with column x then a one-row
batch with column y. -/
theorem append_schema_evolution_witness :
    append_rosbag (append_rosbag none ⟨["x"], [[("x", Cell.int 1)]]⟩)
        ⟨["y"], [[("y", Cell.int 2)]]⟩
      = some (concatDF ⟨["x"], [[("x", Cell.int 1)]]⟩ ⟨["y"], [[("y", Cell.int 2)]]⟩)
    ∧ (concatDF ⟨["x"], [[("x", Cell.int 1)]]⟩ ⟨["y"], [[("y", Cell.int 2)]]⟩).rows.length
      = ([[("x", Cell.int 1)]] : List (List Entry)).length
        + ([[("y", Cell.int 2)]] : List (List Entry)).length :=
  ⟨(append_schema_evolution ⟨["x"], [[("x", Cell.int 1)]]⟩
      ⟨["y"], [[("y", Cell.int 2)]]⟩ (by decide) (by decide) (by decide) (by decide)).1,
   (append_schema_evolution ⟨["x"], [[("x", Cell.int 1)]]⟩
      ⟨["y"], [[("y", Cell.int 2)]]⟩ (by decide) (by decide) (by decide) (by decide)).2.1⟩

/-- C5: a deserialization failure yields the degraded row holding
exactly the metadata entries and the error entry, with no flattened
fields; in a stream with one failing message among well-behaved ones,
every message yields one row in stream order, the failing one degraded
and the other rows unaffected and free of the error column. -/
theorem deserialization_failure_row (c : ConnInfo) (ts : Int) (e : String)
    (pre post : List StreamMsg)
    (hok : ∀ m ∈ pre ++ post, errFree m = true) :
    _extract_message_data c ts (.error e) = degradedRow c ts e
    ∧ keys (degradedRow c ts e) = ["topic", "timestamp", "error", "msgtype"]
    ∧ (_convert_rosbags_to_dataframe (pre ++ ⟨c, ts, .error e⟩ :: post)).rows.length
        = (pre ++ ⟨c, ts, .error e⟩ :: post).length
    ∧ (_convert_rosbags_to_dataframe (pre ++ ⟨c, ts, .error e⟩ :: post)).rows
        = pre.map extractRow ++ degradedRow c ts e :: post.map extractRow
    ∧ "error" ∈ keys (degradedRow c ts e)
    ∧ (∀ r ∈ pre.map extractRow ++ post.map extractRow, "error" ∉ keys r) := by
  have hrows : (_convert_rosbags_to_dataframe (pre ++ ⟨c, ts, .error e⟩ :: post)).rows
      = (pre ++ ⟨c, ts, .error e⟩ :: post).map extractRow := rfl
  refine ⟨rfl, rfl, ?_, ?_, ?_, ?_⟩
  · rw [hrows]
    simp
  · rw [hrows, List.map_append, List.map_cons]
    rfl
  · simp [degradedRow, keys]
  · intro r hr
    rw [List.mem_append] at hr
    have hofm : ∀ m ∈ pre ++ post, "error" ∉ keys (extractRow m) := by
      intro m hm
      have hb := hok m hm
      unfold errFree at hb
      rw [Bool.and_eq_true] at hb
      simpa using hb.2
    rcases hr with hr | hr
    · rcases List.mem_map.mp hr with ⟨m, hm, rfl⟩
      exact hofm m (List.mem_append.mpr (Or.inl hm))
    · rcases List.mem_map.mp hr with ⟨m, hm, rfl⟩
      exact hofm m (List.mem_append.mpr (Or.inr hm))

/-- C5 witness: a three-message stream whose middle message fails to
deserialize. -/
theorem deserialization_failure_row_witness :
    _extract_message_data ⟨"tf", "tyf"⟩ 5 (.error "bad data")
      = degradedRow ⟨"tf", "tyf"⟩ 5 "bad data"
    ∧ keys (degradedRow ⟨"tf", "tyf"⟩ 5 "bad data")
      = ["topic", "timestamp", "error", "msgtype"]
    ∧ (_convert_rosbags_to_dataframe
        ([(⟨⟨"t1", "ty"⟩, 0, .ok (.record [("a", .val (.scalar (.int 1)))])⟩ : StreamMsg)]
          ++ (⟨⟨"tf", "tyf"⟩, 5, .error "bad data"⟩ : StreamMsg)
          :: [(⟨⟨"t2", "ty"⟩, 1000000000, .ok (.record [("b", .val (.scalar (.int 2)))])⟩ : StreamMsg)])).rows.length
      = ([(⟨⟨"t1", "ty"⟩, 0, .ok (.record [("a", .val (.scalar (.int 1)))])⟩ : StreamMsg)]
          ++ (⟨⟨"tf", "tyf"⟩, 5, .error "bad data"⟩ : StreamMsg)
          :: [(⟨⟨"t2", "ty"⟩, 1000000000, .ok (.record [("b", .val (.scalar (.int 2)))])⟩ : StreamMsg)]).length
    ∧ (_convert_rosbags_to_dataframe
        ([(⟨⟨"t1", "ty"⟩, 0, .ok (.record [("a", .val (.scalar (.int 1)))])⟩ : StreamMsg)]
          ++ (⟨⟨"tf", "tyf"⟩, 5, .error "bad data"⟩ : StreamMsg)
          :: [(⟨⟨"t2", "ty"⟩, 1000000000, .ok (.record [("b", .val (.scalar (.int 2)))])⟩ : StreamMsg)])).rows
      = [(⟨⟨"t1", "ty"⟩, 0, .ok (.record [("a", .val (.scalar (.int 1)))])⟩ : StreamMsg)].map extractRow
          ++ degradedRow ⟨"tf", "tyf"⟩ 5 "bad data"
          :: [(⟨⟨"t2", "ty"⟩, 1000000000, .ok (.record [("b", .val (.scalar (.int 2)))])⟩ : StreamMsg)].map extractRow
    ∧ "error" ∈ keys (degradedRow ⟨"tf", "tyf"⟩ 5 "bad data")
    ∧ (∀ r ∈ [(⟨⟨"t1", "ty"⟩, 0, .ok (.record [("a", .val (.scalar (.int 1)))])⟩ : StreamMsg)].map extractRow
          ++ [(⟨⟨"t2", "ty"⟩, 1000000000, .ok (.record [("b", .val (.scalar (.int 2)))])⟩ : StreamMsg)].map extractRow,
        "error" ∉ keys r) :=
  deserialization_failure_row ⟨"tf", "tyf"⟩ 5 "bad data"
    [(⟨⟨"t1", "ty"⟩, 0, .ok (.record [("a", .val (.scalar (.int 1)))])⟩ : StreamMsg)]
    [(⟨⟨"t2", "ty"⟩, 1000000000, .ok (.record [("b", .val (.scalar (.int 2)))])⟩ : StreamMsg)]
    (by decide)

end Robolake
